import Mathlib

/-!
Verification of the text-analysis pipeline in `src/python/app.py`.

The pipeline is: fetch a URL (requests), extract body text (BeautifulSoup),
normalize (`preprocess_text`), segment and count (`segment_and_count`, jieba +
collections.Counter), and render charts (`create_plotly_chart`,
`create_plotly_radar_chart`).  Pure parts are embedded directly; the external
libraries (jieba's segmentation, BeautifulSoup's parser, the network) appear as
explicit function parameters, with any assumed facts about them stated as
hypotheses.
-/

namespace App

/-! ### Character classes

`preprocess_text` runs `re.sub(r'[<.*?>]|[^一-鿿A-Za-z]', ' ', text)`.
Both regex alternatives are single-character classes, so the substitution acts
characterwise.  `keepChar` is the complement of the second class: CJK ideographs
U+4E00..U+9FFF and ASCII letters. -/

def keepChar (c : Char) : Bool :=
  (0x4e00 ≤ c.toNat && c.toNat ≤ 0x9fff) ||
  (0x61 ≤ c.toNat && c.toNat ≤ 0x7a) ||
  (0x41 ≤ c.toNat && c.toNat ≤ 0x5a)

/-- The first regex alternative `[<.*?>]`: one of the five literal characters
`<` `.` `*` `?` `>`. -/
def htmlClassChar (c : Char) : Bool :=
  c.toNat == 0x3c || c.toNat == 0x2e || c.toNat == 0x2a || c.toNat == 0x3f || c.toNat == 0x3e

/-- Python's whitespace (as used by `\s` on str patterns and by `str.strip()`):
ASCII whitespace, the file/group/record/unit separators, NEL, NBSP and the
Unicode space/line/paragraph separators. -/
def isPySpace (c : Char) : Bool :=
  c.toNat == 0x20 || (0x9 ≤ c.toNat && c.toNat ≤ 0xd) ||
  (0x1c ≤ c.toNat && c.toNat ≤ 0x1f) ||
  c.toNat == 0x85 || c.toNat == 0xa0 || c.toNat == 0x1680 ||
  (0x2000 ≤ c.toNat && c.toNat ≤ 0x200a) ||
  c.toNat == 0x2028 || c.toNat == 0x2029 || c.toNat == 0x202f ||
  c.toNat == 0x205f || c.toNat == 0x3000

/-! ### Normalizer: `preprocess_text` -/

/-- One character of `re.sub(r'[<.*?>]|[^一-鿿A-Za-z]', ' ', text)`. -/
def sub1Char (c : Char) : Char :=
  if htmlClassChar c || !(keepChar c) then ' ' else c

def sub1 (l : List Char) : List Char := l.map sub1Char

/-- `re.sub(r'\s+', ' ', s)`: each maximal run of whitespace becomes a single
space.  The flag records whether we are inside a whitespace run. -/
def squeezeGo : List Char → Bool → List Char
  | [], _ => []
  | c :: cs, inRun =>
    if isPySpace c then
      if inRun then squeezeGo cs true else ' ' :: squeezeGo cs true
    else c :: squeezeGo cs false

def squeeze (l : List Char) : List Char := squeezeGo l false

/-- `str.strip()`: drop leading and trailing whitespace. -/
def pyStripList (l : List Char) : List Char :=
  ((l.dropWhile isPySpace).reverse.dropWhile isPySpace).reverse

def pyStrip (s : String) : String := ⟨pyStripList s.data⟩

/-- `preprocess_text(text)`: characterwise substitution, whitespace collapse,
then strip. -/
def preprocess_text (s : String) : String :=
  ⟨pyStripList (squeeze (sub1 s.data))⟩

/-! ### Tokenizer/Aggregator: `segment_and_count` -/

/-- Truthiness of `word.strip()` in the filter of `segment_and_count`: true iff
the token has at least one non-whitespace character. -/
def stripTruthy (w : String) : Bool := w.data.any (fun c => !(isPySpace c))

/-- The list comprehension filter:
`[word for word in jieba.cut(text) if word.strip() and word not in stopwords]`. -/
def filterTokens (words : List String) (stopwords : List String) : List String :=
  words.filter (fun w => stripTruthy w && !(decide (w ∈ stopwords)))

/-- One `collections.Counter` update.  Python dicts keep insertion order: an
existing key keeps its position, a new key is appended at the end. -/
def bump : List (String × Nat) → String → List (String × Nat)
  | [], w => [(w, 1)]
  | (k, c) :: rest, w => if k = w then (k, c + 1) :: rest else (k, c) :: bump rest w

/-- `Counter(words)` as an insertion-ordered association list. -/
def counterFromList (ws : List String) : List (String × Nat) := ws.foldl bump []

/-- `segment_and_count(text, stopwords)`, with `jieba.cut` abstracted as the
parameter `cut`. -/
def segment_and_count (cut : String → List String) (text : String)
    (stopwords : List String) : List (String × Nat) :=
  counterFromList (filterTokens (cut text) stopwords)

/-- The comparison used by `Counter.most_common`: larger counts first.  It is a
total preorder but not antisymmetric: distinct tokens with equal counts are
tied, and the sort order between them is the stable-sort tie-break. -/
def countGE (a b : String × Nat) : Prop := b.2 ≤ a.2

instance : DecidableRel countGE := fun a b => Nat.decLe b.2 a.2

instance : IsTotal (String × Nat) countGE := ⟨fun a b => Nat.le_total b.2 a.2⟩

instance : IsTrans (String × Nat) countGE := ⟨fun _ _ _ h1 h2 => Nat.le_trans h2 h1⟩

/-- `Counter.most_common(n)`.  CPython implements it as
`heapq.nlargest(n, items, key=count)`, documented to equal
`sorted(items, key=count, reverse=True)[:n]` with a stable sort; stable sorting
by a total preorder determines the output uniquely, realized here by
`List.insertionSort` (which Mathlib proves stable). -/
def most_common (m : List (String × Nat)) (n : Nat) : List (String × Nat) :=
  (m.insertionSort countGE).take n

/-- The keys of a Python dict built by repeated insertion, i.e. the input words
in order of first occurrence. -/
def addKey (acc : List String) (w : String) : List String :=
  if w ∈ acc then acc else acc ++ [w]

def firstSeens (ws : List String) : List String := ws.foldl addKey []

/-! ### Extractor: `soup.body.get_text(strip=True, separator='\n') if soup.body else ''`

The DOM produced by BeautifulSoup is modelled as a rose tree of elements and
text nodes; a parsed document is its list of top-level nodes. -/

inductive DomNode where
  | text (s : String)
  | elem (tag : String) (children : List DomNode)

mutual

/-- `soup.find("body")`: first element with tag `body`, in document order. -/
def findBody : DomNode → Option DomNode
  | .text _ => none
  | .elem tag cs =>
    if tag = "body" then some (.elem tag cs) else findBodyList cs

def findBodyList : List DomNode → Option DomNode
  | [] => none
  | n :: ns =>
    match findBody n with
    | some b => some b
    | none => findBodyList ns

end

mutual

/-- The strings yielded by BeautifulSoup's `_all_strings(strip=True)` under one
node: descendant text nodes in document order, each stripped, and skipping the
ones that strip to the empty string. -/
def strippedStrings : DomNode → List String
  | .text s => if pyStrip s = "" then [] else [pyStrip s]
  | .elem _ cs => strippedStringsList cs

def strippedStringsList : List DomNode → List String
  | [] => []
  | n :: ns => strippedStrings n ++ strippedStringsList ns

end

mutual

/-- All descendant text node strings of a node, in document order, unfiltered. -/
def textNodeStrings : DomNode → List String
  | .text s => [s]
  | .elem _ cs => textNodeStringsList cs

def textNodeStringsList : List DomNode → List String
  | [] => []
  | n :: ns => textNodeStrings n ++ textNodeStringsList ns

end

/-- `node.get_text(strip=True, separator='\n')`. -/
def getText (b : DomNode) : String := String.intercalate "\n" (strippedStrings b)

/-- The extractor part of `fetch_text_from_url`:
`soup.body.get_text(strip=True, separator='\n') if soup.body else ''`. -/
def extract_body_text (doc : List DomNode) : String :=
  match findBodyList doc with
  | none => ""
  | some b => getText b

/-- Follows the spec's words, for comparison with `extract_body_text`:
"concatenate all descendant text nodes, separating nodes with a line-break
character, trimming leading/trailing whitespace per node"; body-less documents
give the empty string. -/
def extractSpec (doc : List DomNode) : String :=
  match findBodyList doc with
  | none => ""
  | some b => String.intercalate "\n" ((textNodeStrings b).map pyStrip)

/-! ### Fetcher: `fetch_text_from_url` -/

structure HttpRequest where
  url : String
  headers : List (String × String)
  deriving DecidableEq

/-- A response to the single outbound request.  `declaredEncoding` stands for
the encoding `requests` would have used had the code not overwritten
`response.encoding` with `'utf-8'`. -/
structure HttpResponse where
  statusCode : Nat
  bodyBytes : List Nat
  declaredEncoding : String
  deriving DecidableEq

structure FetchError where
  status : Nat
  deriving DecidableEq

def userAgent : String :=
  "Mozilla/5.0 (Windows NT 10.0; Win64; x64) AppleWebKit/537.36 (KHTML, like Gecko) Chrome/91.0.4472.124 Safari/537.36"

def browserHeaders : List (String × String) := [("User-Agent", userAgent)]

/-- `requests.Response.raise_for_status()`: raises exactly for 4xx client and
5xx server status codes, carrying the status. -/
def raise_for_status (r : HttpResponse) : Except FetchError Unit :=
  if 400 ≤ r.statusCode ∧ r.statusCode < 600 then Except.error ⟨r.statusCode⟩
  else Except.ok ()

structure FetchOutcome where
  requests : List HttpRequest
  result : Except FetchError String

/-- `fetch_text_from_url(url)`.  `decode` is charset decoding (by encoding
name), `parse` is BeautifulSoup's `html.parser`, and `net` is the network: the
outcome records the list of requests issued.  The code sets
`response.encoding = 'utf-8'` before reading `response.text`, so the body is
decoded with `"utf-8"` and `declaredEncoding` is ignored. -/
def fetch_text_from_url (decode : String → List Nat → String)
    (parse : String → List DomNode) (net : HttpRequest → HttpResponse)
    (url : String) : FetchOutcome :=
  ⟨[⟨url, browserHeaders⟩],
    match raise_for_status (net ⟨url, browserHeaders⟩) with
    | Except.error e => Except.error e
    | Except.ok _ =>
      Except.ok (extract_body_text
        (parse (decode "utf-8" (net ⟨url, browserHeaders⟩).bodyBytes)))⟩

/-! ### Chart builders -/

/-- The data series of a Plotly express chart; visual styling is out of the
functional contract, the series and titles are kept. -/
inductive PlotlyChart where
  | bar (x : List String) (y : List Nat) (horizontal : Bool) (title : String)
  | pie (values : List Nat) (names : List String) (title : String)
  | line (x : List String) (y : List Nat) (title : String)
  | scatter (x : List String) (y : List Nat) (size : List Nat) (title : String)
  deriving DecidableEq

def chartWords (m : List (String × Nat)) (n : Nat) : List String :=
  (most_common m n).map Prod.fst

def chartCounts (m : List (String × Nat)) (n : Nat) : List Nat :=
  (most_common m n).map Prod.snd

/-- The eagerly built `chart_mapping` dict of `create_plotly_chart`, keyed by
the chart-type selector strings. -/
def chart_mapping (m : List (String × Nat)) (n : Nat) : List (String × PlotlyChart) :=
  [("垂直条形图", .bar (chartWords m n) (chartCounts m n) false "垂直条形图"),
   ("水平条形图", .bar (chartWords m n) (chartCounts m n) true "水平条形图"),
   ("饼图", .pie (chartCounts m n) (chartWords m n) "饼图"),
   ("折线图", .line (chartWords m n) (chartCounts m n) "折线图"),
   ("散点图", .scatter (chartWords m n) (chartCounts m n) (chartCounts m n) "散点图")]

/-- `create_plotly_chart(chart_type, word_counts, top_n)`:
`chart_mapping.get(chart_type)`, which is `None` for unrecognized selectors. -/
def create_plotly_chart (chart_type : String) (m : List (String × Nat))
    (n : Nat) : Option PlotlyChart :=
  (chart_mapping m n).lookup chart_type

/-- The data of a `px.line_polar` radar chart with `fill='toself'`. -/
structure RadarChart where
  r : List Nat
  theta : List String
  lineClose : Bool
  fill : String
  title : String
  deriving DecidableEq

/-- `create_plotly_radar_chart(word_counts, top_n)`: `None` when there are no
tokens, otherwise the closed, filled polar line over the top pairs. -/
def create_plotly_radar_chart (m : List (String × Nat)) (n : Nat) :
    Option RadarChart :=
  let top := most_common m n
  if top = [] then none
  else some ⟨top.map Prod.snd, top.map Prod.fst, true, "toself", "雷达图"⟩

/-! ## Lemmas about the character classes -/

lemma keepChar_not_pySpace {c : Char} (h : keepChar c = true) : isPySpace c = false := by
  simp only [keepChar, Bool.or_eq_true, Bool.and_eq_true, decide_eq_true_eq] at h
  simp only [isPySpace, Bool.or_eq_false_iff, Bool.and_eq_false_iff,
    beq_eq_false_iff_ne, ne_eq, decide_eq_false_iff_not]
  omega

lemma keepChar_not_htmlClass {c : Char} (h : keepChar c = true) : htmlClassChar c = false := by
  simp only [keepChar, Bool.or_eq_true, Bool.and_eq_true, decide_eq_true_eq] at h
  simp only [htmlClassChar, Bool.or_eq_false_iff, beq_eq_false_iff_ne, ne_eq]
  omega

lemma isPySpace_space : isPySpace ' ' = true := by decide

/-- Two adjacent characters are not both whitespace. -/
def noWsPair (a b : Char) : Prop := ¬(isPySpace a = true ∧ isPySpace b = true)

/-! ## Lemmas about the normalizer stages -/

lemma sub1Char_space_or_keep (c : Char) :
    sub1Char c = ' ' ∨ (sub1Char c = c ∧ keepChar c = true) := by
  unfold sub1Char
  split
  · exact Or.inl rfl
  · rename_i h
    simp only [Bool.or_eq_true, Bool.not_eq_true'] at h
    push_neg at h
    exact Or.inr ⟨rfl, by simpa using h.2⟩

lemma mem_sub1 {l : List Char} {c : Char} (h : c ∈ sub1 l) :
    c = ' ' ∨ keepChar c = true := by
  simp only [sub1, List.mem_map] at h
  obtain ⟨a, -, rfl⟩ := h
  rcases sub1Char_space_or_keep a with h | ⟨h, hk⟩
  · exact Or.inl h
  · exact Or.inr (by rw [h]; exact hk)

lemma mem_squeezeGo : ∀ (l : List Char) (b : Bool) (c : Char), c ∈ squeezeGo l b →
    c = ' ' ∨ (c ∈ l ∧ isPySpace c = false) := by
  intro l
  induction l with
  | nil => intro b c hc; simp [squeezeGo] at hc
  | cons a as ih =>
    intro b c hc
    unfold squeezeGo at hc
    by_cases ha : isPySpace a = true
    · rw [if_pos ha] at hc
      cases b with
      | true =>
        rcases ih true c hc with h | ⟨h1, h2⟩
        · exact Or.inl h
        · exact Or.inr ⟨List.mem_cons_of_mem a h1, h2⟩
      | false =>
        rw [if_neg (by simp)] at hc
        rcases List.mem_cons.1 hc with rfl | hc
        · exact Or.inl rfl
        · rcases ih true c hc with h | ⟨h1, h2⟩
          · exact Or.inl h
          · exact Or.inr ⟨List.mem_cons_of_mem a h1, h2⟩
    · rw [if_neg ha] at hc
      rcases List.mem_cons.1 hc with rfl | hc
      · exact Or.inr ⟨List.mem_cons_self c as, by simpa using ha⟩
      · rcases ih false c hc with h | ⟨h1, h2⟩
        · exact Or.inl h
        · exact Or.inr ⟨List.mem_cons_of_mem a h1, h2⟩

lemma squeezeGo_true_head : ∀ (l : List Char) (c : Char),
    (squeezeGo l true).head? = some c → isPySpace c = false := by
  intro l
  induction l with
  | nil => intro c hc; simp [squeezeGo] at hc
  | cons a as ih =>
    intro c hc
    unfold squeezeGo at hc
    by_cases ha : isPySpace a = true
    · rw [if_pos ha] at hc
      exact ih c hc
    · rw [if_neg ha] at hc
      simp only [List.head?_cons, Option.some.injEq] at hc
      subst hc
      simpa using ha

lemma squeezeGo_chain : ∀ (l : List Char) (b : Bool), (squeezeGo l b).Chain' noWsPair := by
  intro l
  induction l with
  | nil => intro b; simp [squeezeGo]
  | cons a as ih =>
    intro b
    unfold squeezeGo
    by_cases ha : isPySpace a = true
    · rw [if_pos ha]
      cases b with
      | true => exact ih true
      | false =>
        rw [if_neg (by simp)]
        refine List.chain'_cons'.2 ⟨?_, ih true⟩
        intro y hy
        have := squeezeGo_true_head as y (by simpa using hy)
        exact fun hp => by simp [this] at hp
    · rw [if_neg ha]
      refine List.chain'_cons'.2 ⟨?_, ih false⟩
      intro y _
      exact fun hp => by simp [hp.1] at ha

lemma head_dropWhile (p : Char → Bool) : ∀ (l : List Char) (c : Char),
    (l.dropWhile p).head? = some c → p c = false := by
  intro l
  induction l with
  | nil => intro c hc; simp [List.dropWhile] at hc
  | cons a as ih =>
    intro c hc
    rw [List.dropWhile_cons] at hc
    by_cases ha : p a = true
    · rw [if_pos ha] at hc
      exact ih c hc
    · rw [if_neg ha] at hc
      simp only [List.head?_cons, Option.some.injEq] at hc
      subst hc
      simpa using ha

/-- `str.strip()` only removes characters: decompose the input around the
retained middle. -/
lemma pyStripList_decomp (l : List Char) :
    ∃ t1 t2, l = t1 ++ (pyStripList l ++ t2) ∧
      l.dropWhile isPySpace = pyStripList l ++ t2 := by
  refine ⟨l.takeWhile isPySpace,
    (((l.dropWhile isPySpace).reverse.takeWhile isPySpace)).reverse, ?_, ?_⟩
  · conv_lhs => rw [← List.takeWhile_append_dropWhile (p := isPySpace) (l := l)]
    congr 1
    conv_lhs =>
      rw [← List.reverse_reverse (l.dropWhile isPySpace),
        ← List.takeWhile_append_dropWhile (p := isPySpace)
          (l := (l.dropWhile isPySpace).reverse)]
    rw [List.reverse_append]
    rfl
  · conv_lhs =>
      rw [← List.reverse_reverse (l.dropWhile isPySpace),
        ← List.takeWhile_append_dropWhile (p := isPySpace)
          (l := (l.dropWhile isPySpace).reverse)]
    rw [List.reverse_append]
    rfl

lemma mem_pyStripList {l : List Char} {c : Char} (h : c ∈ pyStripList l) : c ∈ l := by
  obtain ⟨t1, t2, hl, -⟩ := pyStripList_decomp l
  rw [hl]
  exact List.mem_append_right t1 (List.mem_append_left t2 h)

lemma chain_pyStripList {l : List Char} {R : Char → Char → Prop} (h : l.Chain' R) :
    (pyStripList l).Chain' R := by
  obtain ⟨t1, t2, hl, -⟩ := pyStripList_decomp l
  rw [hl] at h
  exact (h.right_of_append).left_of_append

lemma head_pyStripList {l : List Char} {c : Char}
    (h : (pyStripList l).head? = some c) : isPySpace c = false := by
  obtain ⟨t1, t2, -, hd⟩ := pyStripList_decomp l
  apply head_dropWhile isPySpace l
  rw [hd]
  cases hm : pyStripList l with
  | nil => rw [hm] at h; simp at h
  | cons x xs =>
    rw [hm] at h
    simp only [List.head?_cons, Option.some.injEq] at h
    subst h
    rfl

lemma getLast_pyStripList {l : List Char} {c : Char}
    (h : (pyStripList l).getLast? = some c) : isPySpace c = false := by
  unfold pyStripList at h
  rw [List.getLast?_reverse] at h
  exact head_dropWhile isPySpace (l.dropWhile isPySpace).reverse c h

/-- The three structural properties of every normalizer output, at the level of
character lists: the alphabet, no adjacent whitespace, and non-whitespace ends. -/
lemma preprocessChars_spec (l : List Char) :
    (∀ c ∈ pyStripList (squeeze (sub1 l)), keepChar c = true ∨ c = ' ') ∧
    (pyStripList (squeeze (sub1 l))).Chain' noWsPair ∧
    (∀ c, (pyStripList (squeeze (sub1 l))).head? = some c → isPySpace c = false) ∧
    (∀ c, (pyStripList (squeeze (sub1 l))).getLast? = some c → isPySpace c = false) := by
  refine ⟨?_, chain_pyStripList (squeezeGo_chain (sub1 l) false),
    fun c h => head_pyStripList h, fun c h => getLast_pyStripList h⟩
  intro c hc
  rcases mem_squeezeGo (sub1 l) false c (mem_pyStripList hc) with rfl | ⟨h1, -⟩
  · exact Or.inr rfl
  · rcases mem_sub1 h1 with h | h
    · exact Or.inr h
    · exact Or.inl h

lemma sub1_fixed : ∀ {l : List Char},
    (∀ c ∈ l, keepChar c = true ∨ c = ' ') → sub1 l = l := by
  intro l
  induction l with
  | nil => intro _; rfl
  | cons a as ih =>
    intro h
    show sub1Char a :: sub1 as = a :: as
    rw [ih (fun c hc => h c (List.mem_cons_of_mem a hc))]
    congr 1
    rcases h a (List.mem_cons_self a as) with hk | rfl
    · unfold sub1Char
      rw [if_neg]
      simp [keepChar_not_htmlClass hk, hk]
    · rfl

lemma squeezeGo_fixed : ∀ (l : List Char),
    (∀ c ∈ l, keepChar c = true ∨ c = ' ') → l.Chain' noWsPair →
    (squeezeGo l false = l ∧
      ((∀ c, l.head? = some c → isPySpace c = false) → squeezeGo l true = l)) := by
  intro l
  induction l with
  | nil => intro _ _; exact ⟨rfl, fun _ => rfl⟩
  | cons a as ih =>
    intro halpha hch
    have hch' := (List.chain'_cons'.1 hch).2
    have hhd := (List.chain'_cons'.1 hch).1
    have ihas := ih (fun c hc => halpha c (List.mem_cons_of_mem a hc)) hch'
    by_cases ha : isPySpace a = true
    · have haSp : a = ' ' := by
        rcases halpha a (List.mem_cons_self a as) with hk | h
        · rw [keepChar_not_pySpace hk] at ha; cases ha
        · exact h
      have hasHead : ∀ c, as.head? = some c → isPySpace c = false := by
        intro c hc
        have := hhd c (by simpa using hc)
        unfold noWsPair at this
        push_neg at this
        simpa using this ha
      constructor
      · show squeezeGo (a :: as) false = a :: as
        unfold squeezeGo
        rw [if_pos ha, if_neg (by simp), ihas.2 hasHead, haSp]
      · intro hh
        have := hh a (by simp)
        rw [this] at ha
        cases ha
    · constructor
      · unfold squeezeGo
        rw [if_neg ha, ihas.1]
      · intro _
        unfold squeezeGo
        rw [if_neg ha, ihas.1]

lemma dropWhile_eq_self_of_head {p : Char → Bool} : ∀ {l : List Char},
    (∀ c, l.head? = some c → p c = false) → l.dropWhile p = l := by
  intro l
  cases l with
  | nil => intro _; rfl
  | cons a as =>
    intro h
    rw [List.dropWhile_cons, if_neg]
    rw [h a (by simp)]
    simp

lemma pyStripList_fixed {l : List Char}
    (hh : ∀ c, l.head? = some c → isPySpace c = false)
    (hl : ∀ c, l.getLast? = some c → isPySpace c = false) : pyStripList l = l := by
  unfold pyStripList
  rw [dropWhile_eq_self_of_head hh]
  rw [dropWhile_eq_self_of_head (by
    intro c hc
    rw [List.head?_reverse] at hc
    exact hl c hc)]
  exact List.reverse_reverse l

/-- C3: The Normalizer (`preprocess_text`) is idempotent: applying it twice
equals applying it once, for every text. -/
theorem preprocess_text_idempotent (s : String) :
    preprocess_text (preprocess_text s) = preprocess_text s := by
  obtain ⟨halpha, hch, hh, hl⟩ := preprocessChars_spec s.data
  have hdata : (preprocess_text s).data = pyStripList (squeeze (sub1 s.data)) := rfl
  have h1 : sub1 (preprocess_text s).data = (preprocess_text s).data := by
    rw [hdata]; exact sub1_fixed halpha
  have h2 : squeeze (preprocess_text s).data = (preprocess_text s).data := by
    rw [hdata]; exact (squeezeGo_fixed _ halpha hch).1
  have h3 : pyStripList (preprocess_text s).data = (preprocess_text s).data := by
    rw [hdata]; exact pyStripList_fixed hh hl
  show (⟨pyStripList (squeeze (sub1 (preprocess_text s).data))⟩ : String) = preprocess_text s
  rw [h1, h2, h3]

/-- C4: For every input string, the normalizer output consists only of CJK
ideographs and ASCII letters plus single ASCII spaces: every character is in
the kept alphabet or is a space, no two consecutive characters are spaces, and
the output neither starts nor ends with a space. -/
theorem preprocess_text_output_shape (s : String) :
    (∀ c ∈ (preprocess_text s).data, keepChar c = true ∨ c = ' ') ∧
    (preprocess_text s).data.Chain' (fun a b => ¬(a = ' ' ∧ b = ' ')) ∧
    (∀ c, (preprocess_text s).data.head? = some c → c ≠ ' ') ∧
    (∀ c, (preprocess_text s).data.getLast? = some c → c ≠ ' ') := by
  obtain ⟨halpha, hch, hh, hl⟩ := preprocessChars_spec s.data
  have hdata : (preprocess_text s).data = pyStripList (squeeze (sub1 s.data)) := rfl
  refine ⟨by rw [hdata]; exact halpha, ?_, ?_, ?_⟩
  · rw [hdata]
    refine hch.imp ?_
    intro a b hab ⟨ha, hb⟩
    exact hab ⟨by rw [ha]; exact isPySpace_space, by rw [hb]; exact isPySpace_space⟩
  · intro c hc heq
    rw [hdata] at hc
    have := hh c hc
    rw [heq, isPySpace_space] at this
    cases this
  · intro c hc heq
    rw [hdata] at hc
    have := hl c hc
    rw [heq, isPySpace_space] at this
    cases this

/-- Witness for C4 at a concrete input. -/
theorem preprocess_text_output_shape_witness :
    (∀ c ∈ (preprocess_text "a<b>.. 世界  x").data, keepChar c = true ∨ c = ' ') ∧
    (preprocess_text "a<b>.. 世界  x").data.Chain' (fun a b => ¬(a = ' ' ∧ b = ' ')) ∧
    (∀ c, (preprocess_text "a<b>.. 世界  x").data.head? = some c → c ≠ ' ') ∧
    (∀ c, (preprocess_text "a<b>.. 世界  x").data.getLast? = some c → c ≠ ' ') :=
  preprocess_text_output_shape "a<b>.. 世界  x"

/-! ## Lemmas about the aggregator -/

lemma bump_pos : ∀ (m : List (String × Nat)) (w : String),
    (∀ p ∈ m, 1 ≤ p.2) → ∀ p ∈ bump m w, 1 ≤ p.2 := by
  intro m
  induction m with
  | nil =>
    intro w _ p hp
    simp only [bump, List.mem_singleton] at hp
    subst hp
    exact Nat.le_refl 1
  | cons a rest ih =>
    intro w h p hp
    obtain ⟨k, c⟩ := a
    unfold bump at hp
    by_cases hk : k = w
    · rw [if_pos hk] at hp
      rcases List.mem_cons.1 hp with rfl | hp
      · exact Nat.le_succ_of_le (h (k, c) (List.mem_cons_self _ _))
      · exact h p (List.mem_cons_of_mem _ hp)
    · rw [if_neg hk] at hp
      rcases List.mem_cons.1 hp with rfl | hp
      · exact h (k, c) (List.mem_cons_self _ _)
      · exact ih w (fun q hq => h q (List.mem_cons_of_mem _ hq)) p hp

lemma foldl_bump_pos : ∀ (ws : List String) (m : List (String × Nat)),
    (∀ p ∈ m, 1 ≤ p.2) → ∀ p ∈ ws.foldl bump m, 1 ≤ p.2 := by
  intro ws
  induction ws with
  | nil => intro m h p hp; exact h p hp
  | cons w ws ih =>
    intro m h p hp
    exact ih (bump m w) (bump_pos m w h) p hp

lemma counterFromList_pos {ws : List String} {p : String × Nat}
    (hp : p ∈ counterFromList ws) : 1 ≤ p.2 :=
  foldl_bump_pos ws [] (by simp) p hp

lemma bump_keys : ∀ (m : List (String × Nat)) (w : String) (p : String × Nat),
    p ∈ bump m w → p.1 ∈ m.map Prod.fst ∨ p.1 = w := by
  intro m
  induction m with
  | nil =>
    intro w p hp
    simp only [bump, List.mem_singleton] at hp
    subst hp
    exact Or.inr rfl
  | cons a rest ih =>
    intro w p hp
    obtain ⟨k, c⟩ := a
    unfold bump at hp
    by_cases hk : k = w
    · rw [if_pos hk] at hp
      rcases List.mem_cons.1 hp with rfl | hp
      · exact Or.inl (by simp)
      · exact Or.inl (by simp [List.mem_map]; exact Or.inr ⟨p.2, by simpa using hp⟩)
    · rw [if_neg hk] at hp
      rcases List.mem_cons.1 hp with rfl | hp
      · exact Or.inl (by simp)
      · rcases ih w p hp with h | h
        · exact Or.inl (by simp [List.mem_map] at h ⊢; exact Or.inr h)
        · exact Or.inr h

lemma foldl_bump_keys : ∀ (ws : List String) (m : List (String × Nat)) (p : String × Nat),
    p ∈ ws.foldl bump m → p.1 ∈ m.map Prod.fst ∨ p.1 ∈ ws := by
  intro ws
  induction ws with
  | nil => intro m p hp; exact Or.inl (by simpa using List.mem_map_of_mem Prod.fst hp)
  | cons w ws ih =>
    intro m p hp
    rcases ih (bump m w) p hp with h | h
    · rw [List.foldl_cons] at hp
      rcases List.mem_map.1 h with ⟨q, hq, hfst⟩
      rcases bump_keys m w q hq with hq' | hq'
      · exact Or.inl (by rw [← hfst]; exact hq')
      · exact Or.inr (by rw [← hfst, hq']; exact List.mem_cons_self w ws)
    · exact Or.inr (List.mem_cons_of_mem w h)

lemma counterFromList_keys {ws : List String} {p : String × Nat}
    (hp : p ∈ counterFromList ws) : p.1 ∈ ws := by
  rcases foldl_bump_keys ws [] p hp with h | h
  · simp at h
  · exact h

lemma mem_filterTokens {words sw : List String} {w : String}
    (h : w ∈ filterTokens words sw) :
    w ∈ words ∧ stripTruthy w = true ∧ w ∉ sw := by
  simp only [filterTokens, List.mem_filter, Bool.and_eq_true, Bool.not_eq_true',
    decide_eq_false_iff_not] at h
  exact ⟨h.1, h.2.1, h.2.2⟩

lemma stripTruthy_ne_empty {w : String} (h : stripTruthy w = true) : w ≠ "" := by
  intro heq
  subst heq
  exact absurd h (by decide)

/-- C2 counterexample data: with the whole text as the single yielded token
(jieba itself yields the bare token "!" on this input), the key `"你好!"`
contains `'!'`, which is neither a CJK ideograph nor an ASCII letter. -/
theorem segment_and_count_nonalpha_key :
    segment_and_count (fun s => [s]) "你好!" [] = [("你好!", 1)] ∧
    ('!' ∈ ("你好!" : String).data ∧ keepChar '!' = false) := by decide

/-- C2 (amended): for every text, stopword set and segmentation, every key of
`segment_and_count` is non-empty, is not a stopword, and has count at least 1;
and provided every token the segmentation yields on the text is either pure
whitespace or consists only of CJK ideographs and ASCII letters (as a
Chinese-aware segmentation of normalized text does), every key consists only
of CJK ideographs and ASCII letters. -/
theorem segment_and_count_key_invariants (cut : String → List String)
    (text : String) (sw : List String) :
    (∀ p ∈ segment_and_count cut text sw, p.1 ≠ "" ∧ p.1 ∉ sw ∧ 1 ≤ p.2) ∧
    ((∀ w ∈ cut text,
        (∀ c ∈ w.data, isPySpace c = true) ∨ (∀ c ∈ w.data, keepChar c = true)) →
      ∀ p ∈ segment_and_count cut text sw, ∀ c ∈ p.1.data, keepChar c = true) := by
  constructor
  · intro p hp
    have hkey := counterFromList_keys hp
    obtain ⟨-, hst, hsw⟩ := mem_filterTokens hkey
    exact ⟨stripTruthy_ne_empty hst, hsw, counterFromList_pos hp⟩
  · intro htok p hp c hc
    have hkey := counterFromList_keys hp
    obtain ⟨hcut, hst, -⟩ := mem_filterTokens hkey
    rcases htok p.1 hcut with hws | hkeep
    · exfalso
      simp only [stripTruthy, List.any_eq_true, Bool.not_eq_true'] at hst
      obtain ⟨d, hd, hdws⟩ := hst
      rw [hws d hd] at hdws
      cases hdws
    · exact hkeep c hc

/-- Witness for C2's amended theorem at a concrete segmentation and text. -/
theorem segment_and_count_key_invariants_witness :
    (∀ p ∈ segment_and_count (fun _ => ["数据", " ", "data"]) "数据 data" ["的"],
      p.1 ≠ "" ∧ p.1 ∉ ["的"] ∧ 1 ≤ p.2) ∧
    ((∀ w ∈ (fun (_ : String) => ["数据", " ", "data"]) "数据 data",
        (∀ c ∈ w.data, isPySpace c = true) ∨ (∀ c ∈ w.data, keepChar c = true)) →
      ∀ p ∈ segment_and_count (fun _ => ["数据", " ", "data"]) "数据 data" ["的"],
        ∀ c ∈ p.1.data, keepChar c = true) :=
  segment_and_count_key_invariants (fun _ => ["数据", " ", "data"]) "数据 data" ["的"]

/-- C9: empty text is not an error: the normalizer maps the empty string to the
empty string, and (since jieba yields no tokens on empty input) segmenting and
counting the empty string gives the empty frequency map, for any stopwords. -/
theorem empty_text_pipeline (cut : String → List String) (sw : List String)
    (hcut : cut "" = []) :
    preprocess_text "" = "" ∧ segment_and_count cut "" sw = [] := by
  refine ⟨rfl, ?_⟩
  unfold segment_and_count
  rw [hcut]
  rfl

/-- Witness for C9 with the segmentation that yields no tokens anywhere. -/
theorem empty_text_pipeline_witness :
    (fun (_ : String) => ([] : List String)) "" = [] ∧
    (preprocess_text "" = "" ∧
      segment_and_count (fun _ => []) "" ["的"] = []) :=
  ⟨rfl, empty_text_pipeline (fun _ => []) ["的"] rfl⟩

/-- C7: the radar chart builder returns the null chart on the empty frequency
map rather than failing, whatever the requested top-N is. -/
theorem radar_chart_empty_map (n : Nat) : create_plotly_radar_chart [] n = none := by
  simp [create_plotly_radar_chart, most_common]

/-- C8: every chart-type selector outside the five recognized values yields no
chart object from `create_plotly_chart` (the dict lookup returns `None`; no
exception path exists, the builder is total). -/
theorem create_plotly_chart_unrecognized (ct : String) (m : List (String × Nat))
    (n : Nat) (h : ct ∉ ["垂直条形图", "水平条形图", "饼图", "折线图", "散点图"]) :
    create_plotly_chart ct m n = none := by
  simp only [List.mem_cons, List.not_mem_nil, or_false, not_or] at h
  obtain ⟨h1, h2, h3, h4, h5⟩ := h
  simp [create_plotly_chart, chart_mapping, List.lookup,
    beq_eq_false_iff_ne.2 h1, beq_eq_false_iff_ne.2 h2, beq_eq_false_iff_ne.2 h3,
    beq_eq_false_iff_ne.2 h4, beq_eq_false_iff_ne.2 h5]

/-- Witness for C8: the radar selector is dispatched elsewhere in `main`, so
inside `create_plotly_chart` it is unrecognized and yields `None`. -/
theorem create_plotly_chart_unrecognized_witness :
    ("雷达图" : String) ∉ ["垂直条形图", "水平条形图", "饼图", "折线图", "散点图"] ∧
    create_plotly_chart "雷达图" [("测试", 5)] 20 = none :=
  ⟨by decide, create_plotly_chart_unrecognized "雷达图" [("测试", 5)] 20 (by decide)⟩

/-- C10: on a frequency map with fewer distinct tokens than the requested N,
top-N retrieval returns all the pairs — min(N, number of tokens) of them — in
non-increasing count order, rather than failing or padding. -/
theorem most_common_small_map (m : List (String × Nat)) (n : Nat)
    (h : m.length < n) :
    (most_common m n).Perm m ∧
    (most_common m n).length = min n m.length ∧
    (most_common m n).Pairwise (fun p q => q.2 ≤ p.2) := by
  have hlen : (m.insertionSort countGE).length = m.length :=
    List.length_insertionSort countGE m
  have htake : most_common m n = m.insertionSort countGE := by
    unfold most_common
    exact List.take_of_length_le (by omega)
  refine ⟨?_, ?_, ?_⟩
  · rw [htake]
    exact List.perm_insertionSort countGE m
  · rw [htake, hlen]
    omega
  · rw [htake]
    exact List.sorted_insertionSort countGE m

/-- Witness for C10 on a two-token map with N = 20. -/
theorem most_common_small_map_witness :
    ([("分析", 3), ("测试", 5)] : List (String × Nat)).length < 20 ∧
    ((most_common [("分析", 3), ("测试", 5)] 20).Perm [("分析", 3), ("测试", 5)] ∧
      (most_common [("分析", 3), ("测试", 5)] 20).length =
        min 20 ([("分析", 3), ("测试", 5)] : List (String × Nat)).length ∧
      (most_common [("分析", 3), ("测试", 5)] 20).Pairwise (fun p q => q.2 ≤ p.2)) :=
  ⟨by decide, most_common_small_map [("分析", 3), ("测试", 5)] 20 (by decide)⟩

/-! ## Lemmas about the extractor -/

mutual

theorem strippedStrings_eq : ∀ (nd : DomNode),
    strippedStrings nd = ((textNodeStrings nd).map pyStrip).filter (fun s => !(s == ""))
  | .text s => by
    rw [strippedStrings, textNodeStrings]
    by_cases h : pyStrip s = ""
    · rw [if_pos h]
      simp [h]
    · rw [if_neg h]
      simp [h]
  | .elem t cs => by
    rw [strippedStrings, textNodeStrings]
    exact strippedStringsList_eq cs

theorem strippedStringsList_eq : ∀ (ns : List DomNode),
    strippedStringsList ns =
      ((textNodeStringsList ns).map pyStrip).filter (fun s => !(s == ""))
  | [] => by rw [strippedStringsList, textNodeStringsList]; rfl
  | n :: ns => by
    rw [strippedStringsList, textNodeStringsList, List.map_append, List.filter_append,
      strippedStrings_eq n, strippedStringsList_eq ns]

end

/-- C5 counterexample: a body whose middle text node is whitespace-only.  The
code (`get_text(strip=True, ...)`) skips the node entirely, while the claim's
description inserts an empty segment between two separators. -/
theorem extract_body_text_counterexample :
    extract_body_text
        [DomNode.elem "html" [DomNode.elem "body"
          [DomNode.text "a", DomNode.text "  ", DomNode.text "b"]]] = "a\nb" ∧
    extractSpec
        [DomNode.elem "html" [DomNode.elem "body"
          [DomNode.text "a", DomNode.text "  ", DomNode.text "b"]]] = "a\n\nb" ∧
    extract_body_text
        [DomNode.elem "html" [DomNode.elem "body"
          [DomNode.text "a", DomNode.text "  ", DomNode.text "b"]]] ≠
      extractSpec
        [DomNode.elem "html" [DomNode.elem "body"
          [DomNode.text "a", DomNode.text "  ", DomNode.text "b"]]] := by decide

/-- C5 (amended): a body-less document extracts to the empty string; with a
body, the extraction is the trimmed descendant text nodes joined by a
line-break — except that nodes that trim to the empty string are skipped. -/
theorem extract_body_text_spec (doc : List DomNode) :
    (findBodyList doc = none → extract_body_text doc = "") ∧
    (∀ b, findBodyList doc = some b →
      extract_body_text doc =
        String.intercalate "\n"
          (((textNodeStrings b).map pyStrip).filter (fun s => !(s == "")))) := by
  constructor
  · intro h
    unfold extract_body_text
    rw [h]
  · intro b h
    have h1 : extract_body_text doc = String.intercalate "\n" (strippedStrings b) := by
      unfold extract_body_text
      rw [h]
      rfl
    rw [h1, strippedStrings_eq b]

/-- Witness for C5's amended theorem on a concrete document with a body. -/
theorem extract_body_text_spec_witness :
    (findBodyList [DomNode.elem "body" [DomNode.text " 数据 "]] = none →
      extract_body_text [DomNode.elem "body" [DomNode.text " 数据 "]] = "") ∧
    (∀ b, findBodyList [DomNode.elem "body" [DomNode.text " 数据 "]] = some b →
      extract_body_text [DomNode.elem "body" [DomNode.text " 数据 "]] =
        String.intercalate "\n"
          (((textNodeStrings b).map pyStrip).filter (fun s => !(s == "")))) :=
  extract_body_text_spec [DomNode.elem "body" [DomNode.text " 数据 "]]

/-! ## The fetcher contract -/

/-- C6: for every decoding, parser, network behavior and URL, the fetcher
issues exactly one GET request, with the browser-like User-Agent header; its
result is a `FetchError` carrying the status exactly when the status is
non-success (a 4xx/5xx status, the statuses `raise_for_status` raises for),
on success the body bytes are decoded as UTF-8, and the outcome is independent
of the response's declared encoding. -/
theorem fetch_text_from_url_contract (decode : String → List Nat → String)
    (parse : String → List DomNode) (net : HttpRequest → HttpResponse)
    (url : String) :
    (fetch_text_from_url decode parse net url).requests = [⟨url, browserHeaders⟩] ∧
    ("User-Agent", userAgent) ∈ browserHeaders ∧
    ((400 ≤ (net ⟨url, browserHeaders⟩).statusCode ∧
        (net ⟨url, browserHeaders⟩).statusCode < 600) →
      (fetch_text_from_url decode parse net url).result =
        Except.error ⟨(net ⟨url, browserHeaders⟩).statusCode⟩) ∧
    (¬(400 ≤ (net ⟨url, browserHeaders⟩).statusCode ∧
        (net ⟨url, browserHeaders⟩).statusCode < 600) →
      (fetch_text_from_url decode parse net url).result =
        Except.ok (extract_body_text
          (parse (decode "utf-8" (net ⟨url, browserHeaders⟩).bodyBytes)))) ∧
    (∀ net' : HttpRequest → HttpResponse,
      (net' ⟨url, browserHeaders⟩).statusCode = (net ⟨url, browserHeaders⟩).statusCode →
      (net' ⟨url, browserHeaders⟩).bodyBytes = (net ⟨url, browserHeaders⟩).bodyBytes →
      fetch_text_from_url decode parse net' url = fetch_text_from_url decode parse net url) := by
  refine ⟨rfl, by simp [browserHeaders], ?_, ?_, ?_⟩
  · intro h
    simp only [fetch_text_from_url, raise_for_status]
    rw [if_pos h]
  · intro h
    simp only [fetch_text_from_url, raise_for_status]
    rw [if_neg h]
  · intro net' hst hbody
    simp only [fetch_text_from_url, raise_for_status]
    rw [hst, hbody]

/-- Witness for C6 at a concrete network returning a 404. -/
theorem fetch_text_from_url_contract_witness :
    (fetch_text_from_url (fun _ _ => "") (fun _ => [])
        (fun _ => ⟨404, [], "gbk"⟩) "http://e.com").requests =
      [⟨"http://e.com", browserHeaders⟩] ∧
    ("User-Agent", userAgent) ∈ browserHeaders ∧
    ((400 ≤ ((fun (_ : HttpRequest) => (⟨404, [], "gbk"⟩ : HttpResponse))
          ⟨"http://e.com", browserHeaders⟩).statusCode ∧
        ((fun (_ : HttpRequest) => (⟨404, [], "gbk"⟩ : HttpResponse))
          ⟨"http://e.com", browserHeaders⟩).statusCode < 600) →
      (fetch_text_from_url (fun _ _ => "") (fun _ => [])
          (fun _ => ⟨404, [], "gbk"⟩) "http://e.com").result =
        Except.error ⟨((fun (_ : HttpRequest) => (⟨404, [], "gbk"⟩ : HttpResponse))
          ⟨"http://e.com", browserHeaders⟩).statusCode⟩) ∧
    (¬(400 ≤ ((fun (_ : HttpRequest) => (⟨404, [], "gbk"⟩ : HttpResponse))
          ⟨"http://e.com", browserHeaders⟩).statusCode ∧
        ((fun (_ : HttpRequest) => (⟨404, [], "gbk"⟩ : HttpResponse))
          ⟨"http://e.com", browserHeaders⟩).statusCode < 600) →
      (fetch_text_from_url (fun _ _ => "") (fun _ => [])
          (fun _ => ⟨404, [], "gbk"⟩) "http://e.com").result =
        Except.ok (extract_body_text (((fun _ => []) : String → List DomNode)
          (((fun _ _ => "") : String → List Nat → String) "utf-8"
            ((fun (_ : HttpRequest) => (⟨404, [], "gbk"⟩ : HttpResponse))
              ⟨"http://e.com", browserHeaders⟩).bodyBytes)))) ∧
    (∀ net' : HttpRequest → HttpResponse,
      (net' ⟨"http://e.com", browserHeaders⟩).statusCode =
        ((fun (_ : HttpRequest) => (⟨404, [], "gbk"⟩ : HttpResponse))
          ⟨"http://e.com", browserHeaders⟩).statusCode →
      (net' ⟨"http://e.com", browserHeaders⟩).bodyBytes =
        ((fun (_ : HttpRequest) => (⟨404, [], "gbk"⟩ : HttpResponse))
          ⟨"http://e.com", browserHeaders⟩).bodyBytes →
      fetch_text_from_url (fun _ _ => "") (fun _ => []) net' "http://e.com" =
        fetch_text_from_url (fun _ _ => "") (fun _ => [])
          (fun _ => ⟨404, [], "gbk"⟩) "http://e.com") :=
  fetch_text_from_url_contract (fun _ _ => "") (fun _ => [])
    (fun _ => ⟨404, [], "gbk"⟩) "http://e.com"

/-! ## Lemmas for the top-N ordering and tie-break -/

lemma map_fst_bump : ∀ (m : List (String × Nat)) (w : String),
    (bump m w).map Prod.fst = addKey (m.map Prod.fst) w := by
  intro m
  induction m with
  | nil => intro w; simp [bump, addKey]
  | cons a rest ih =>
    intro w
    obtain ⟨k, c⟩ := a
    unfold bump
    by_cases hk : k = w
    · rw [if_pos hk]
      have hw : w ∈ ((k, c) :: rest).map Prod.fst := by simp [hk.symm]
      unfold addKey
      rw [if_pos hw]
      rfl
    · rw [if_neg hk]
      show k :: (bump rest w).map Prod.fst = addKey (k :: rest.map Prod.fst) w
      rw [ih w]
      unfold addKey
      by_cases hw : w ∈ rest.map Prod.fst
      · rw [if_pos hw, if_pos (List.mem_cons_of_mem k hw)]
      · rw [if_neg hw, if_neg (by
          intro hmem
          rcases List.mem_cons.1 hmem with h | h
          · exact hk h.symm
          · exact hw h)]
        rfl

lemma map_fst_foldl_bump : ∀ (ws : List String) (m : List (String × Nat)),
    (ws.foldl bump m).map Prod.fst = ws.foldl addKey (m.map Prod.fst) := by
  intro ws
  induction ws with
  | nil => intro m; simp
  | cons w ws ih =>
    intro m
    rw [List.foldl_cons, List.foldl_cons, ih (bump m w), map_fst_bump]

lemma counter_keys (ws : List String) :
    (counterFromList ws).map Prod.fst = firstSeens ws :=
  map_fst_foldl_bump ws []

lemma foldl_addKey_ext : ∀ (ws acc : List String),
    ∃ t, ws.foldl addKey acc = acc ++ t := by
  intro ws
  induction ws with
  | nil => intro acc; exact ⟨[], by simp⟩
  | cons w ws ih =>
    intro acc
    rw [List.foldl_cons]
    by_cases h : w ∈ acc
    · have ha : addKey acc w = acc := by unfold addKey; rw [if_pos h]
      rw [ha]
      exact ih acc
    · have ha : addKey acc w = acc ++ [w] := by unfold addKey; rw [if_neg h]
      rw [ha]
      obtain ⟨t, ht⟩ := ih (acc ++ [w])
      exact ⟨[w] ++ t, by rw [ht, List.append_assoc]⟩

lemma foldl_addKey_nodup : ∀ (ws acc : List String),
    acc.Nodup → (ws.foldl addKey acc).Nodup := by
  intro ws
  induction ws with
  | nil => intro acc h; simpa using h
  | cons w ws ih =>
    intro acc h
    rw [List.foldl_cons]
    apply ih
    unfold addKey
    split
    · exact h
    · rename_i hw
      rw [List.nodup_append]
      refine ⟨h, List.nodup_singleton w, ?_⟩
      intro a ha hb
      rw [List.mem_singleton] at hb
      subst hb
      exact hw ha

lemma firstSeens_nodup (ws : List String) : (firstSeens ws).Nodup :=
  foldl_addKey_nodup ws [] List.nodup_nil

lemma foldl_addKey_before {acc ws : List String} {u v : String} (hu : u ∈ acc)
    (hv : v ∉ acc) (hvm : v ∈ ws.foldl addKey acc) :
    [u, v].Sublist (ws.foldl addKey acc) := by
  obtain ⟨t, ht⟩ := foldl_addKey_ext ws acc
  rw [ht] at hvm ⊢
  have hvt : v ∈ t := by
    rcases List.mem_append.1 hvm with h | h
    · exact absurd h hv
    · exact h
  exact List.Sublist.append (List.singleton_sublist.2 hu) (List.singleton_sublist.2 hvt)

lemma foldl_addKey_order : ∀ (ws acc : List String) (u v : String),
    u ∈ ws.foldl addKey acc → v ∈ ws.foldl addKey acc → u ∉ acc → v ∉ acc →
    ws.indexOf u < ws.indexOf v → [u, v].Sublist (ws.foldl addKey acc) := by
  intro ws
  induction ws with
  | nil =>
    intro acc u v hu _ hu' _ _
    rw [List.foldl_nil] at hu
    exact absurd hu hu'
  | cons w ws ih =>
    intro acc u v hu hv hu' hv' hidx
    rw [List.foldl_cons] at hu hv ⊢
    by_cases huw : u = w
    · subst huw
      have hvu : v ≠ u := by
        intro he
        subst he
        omega
      refine foldl_addKey_before ?_ ?_ hv
      · unfold addKey
        rw [if_neg hu']
        exact List.mem_append_right acc (by simp)
      · unfold addKey
        rw [if_neg hu']
        intro hmem
        rcases List.mem_append.1 hmem with h | h
        · exact hv' h
        · rw [List.mem_singleton] at h
          exact hvu h
    · have hvw : v ≠ w := by
        intro he
        subst he
        rw [List.indexOf_cons_self] at hidx
        omega
      have hu'' : u ∉ addKey acc w := by
        unfold addKey
        split
        · exact hu'
        · intro hmem
          rcases List.mem_append.1 hmem with h | h
          · exact hu' h
          · rw [List.mem_singleton] at h
            exact huw h
      have hv'' : v ∉ addKey acc w := by
        unfold addKey
        split
        · exact hv'
        · intro hmem
          rcases List.mem_append.1 hmem with h | h
          · exact hv' h
          · rw [List.mem_singleton] at h
            exact hvw h
      have hidx' : ws.indexOf u < ws.indexOf v := by
        rw [List.indexOf_cons_ne ws (fun he => huw he.symm),
          List.indexOf_cons_ne ws (fun he => hvw he.symm)] at hidx
        omega
      exact ih (addKey acc w) u v hu hv hu'' hv'' hidx'

lemma firstSeens_order {ws : List String} {u v : String} (hu : u ∈ firstSeens ws)
    (hv : v ∈ firstSeens ws) (hidx : ws.indexOf u < ws.indexOf v) :
    [u, v].Sublist (firstSeens ws) :=
  foldl_addKey_order ws [] u v hu hv (by simp) (by simp) hidx

lemma indexOf_filter_lt (p : String → Bool) : ∀ (l : List String) (u v : String),
    p u = true → p v = true → l.indexOf u < l.indexOf v →
    (l.filter p).indexOf u < (l.filter p).indexOf v := by
  intro l
  induction l with
  | nil =>
    intro u v _ _ h
    rw [List.indexOf_nil, List.indexOf_nil] at h
    omega
  | cons a as ih =>
    intro u v hu hv h
    by_cases hua : a = u
    · subst hua
      have hva : a ≠ v := by
        intro he
        subst he
        rw [List.indexOf_cons_self] at h
        omega
      rw [List.filter_cons_of_pos hu, List.indexOf_cons_self,
        List.indexOf_cons_ne _ hva]
      omega
    · by_cases hva : a = v
      · subst hva
        rw [List.indexOf_cons_self] at h
        omega
      · rw [List.indexOf_cons_ne as (fun he => hua he),
          List.indexOf_cons_ne as (fun he => hva he)] at h
        by_cases hpa : p a = true
        · rw [List.filter_cons_of_pos hpa, List.indexOf_cons_ne _ hua,
            List.indexOf_cons_ne _ hva]
          have := ih u v hu hv (by omega)
          omega
        · rw [List.filter_cons_of_neg (by simpa using hpa)]
          exact ih u v hu hv (by omega)

lemma keys_pair_lift : ∀ (m : List (String × Nat)) (u v : String) (cu cv : Nat),
    (m.map Prod.fst).Nodup → [u, v].Sublist (m.map Prod.fst) →
    (u, cu) ∈ m → (v, cv) ∈ m → [(u, cu), (v, cv)].Sublist m := by
  intro m
  induction m with
  | nil => intro u v cu cv _ _ hu _; simp at hu
  | cons a rest ih =>
    intro u v cu cv hnd hs hu hv
    obtain ⟨k, c⟩ := a
    have hndk : k ∉ rest.map Prod.fst ∧ (rest.map Prod.fst).Nodup := by
      have h2 : ((k, c) :: rest).map Prod.fst = k :: rest.map Prod.fst := rfl
      rw [h2] at hnd
      exact ⟨(List.nodup_cons.1 hnd).1, (List.nodup_cons.1 hnd).2⟩
    cases hs with
    | cons _ hs' =>
      have humem : u ∈ rest.map Prod.fst := hs'.subset (by simp)
      have hvmem : v ∈ rest.map Prod.fst := hs'.subset (by simp)
      have hu' : (u, cu) ∈ rest := by
        rcases List.mem_cons.1 hu with he | h
        · exfalso
          have hk : u = k := congrArg Prod.fst he
          rw [hk] at humem
          exact hndk.1 humem
        · exact h
      have hv' : (v, cv) ∈ rest := by
        rcases List.mem_cons.1 hv with he | h
        · exfalso
          have hk : v = k := congrArg Prod.fst he
          rw [hk] at hvmem
          exact hndk.1 hvmem
        · exact h
      exact (ih u v cu cv hndk.2 hs' hu' hv').cons (k, c)
    | cons₂ _ hs' =>
      have hvmem : v ∈ rest.map Prod.fst := hs'.subset (by simp)
      have hv' : (v, cv) ∈ rest := by
        rcases List.mem_cons.1 hv with he | h
        · exfalso
          have hk : v = k := congrArg Prod.fst he
          rw [hk] at hvmem
          exact hndk.1 hvmem
        · exact h
      have hcu : cu = c := by
        rcases List.mem_cons.1 hu with he | h
        · exact congrArg Prod.snd he
        · exfalso
          exact hndk.1 (List.mem_map_of_mem Prod.fst h)
      rw [hcu]
      exact (List.singleton_sublist.2 hv').cons₂ (k, c)

lemma sublist_take_of_mem {α : Type} : ∀ (l : List α) (n : Nat) (p q : α),
    l.Nodup → [p, q].Sublist l → p ∈ l.take n → q ∈ l.take n →
    [p, q].Sublist (l.take n) := by
  intro l
  induction l with
  | nil => intro n p q _ _ hp _; simp at hp
  | cons a as ih =>
    intro n p q hnd hs hp hq
    cases n with
    | zero => simp at hp
    | succ n =>
      rw [List.take_succ_cons] at hp hq ⊢
      have hnd' := List.nodup_cons.1 hnd
      cases hs with
      | cons _ hs' =>
        have hpas : p ∈ as := hs'.subset (by simp)
        have hqas : q ∈ as := hs'.subset (by simp)
        have hp' : p ∈ as.take n := by
          rcases List.mem_cons.1 hp with he | h
          · exact absurd (he ▸ hpas) hnd'.1
          · exact h
        have hq' : q ∈ as.take n := by
          rcases List.mem_cons.1 hq with he | h
          · exact absurd (he ▸ hqas) hnd'.1
          · exact h
        exact (ih n p q hnd'.2 hs' hp' hq').cons a
      | cons₂ _ hs' =>
        have hqas : q ∈ as := hs'.subset (by simp)
        have hq' : q ∈ as.take n := by
          rcases List.mem_cons.1 hq with he | h
          · exact absurd (he ▸ hqas) hnd'.1
          · exact h
        exact (List.singleton_sublist.2 hq').cons₂ a

lemma most_common_le (m : List (String × Nat)) (n : Nat) :
    ∀ p ∈ most_common m n, ∀ q ∈ m, q ∉ most_common m n → q.2 ≤ p.2 := by
  intro p hp q hq hq'
  have hsorted : List.Pairwise countGE (m.insertionSort countGE) :=
    List.sorted_insertionSort countGE m
  have hq2 : q ∈ m.insertionSort countGE := (List.mem_insertionSort countGE).2 hq
  rw [← List.take_append_drop n (m.insertionSort countGE)] at hq2
  rcases List.mem_append.1 hq2 with h | h
  · exact absurd h hq'
  · have hsorted2 : List.Pairwise countGE
        (List.take n (m.insertionSort countGE) ++ List.drop n (m.insertionSort countGE)) := by
      rw [List.take_append_drop]
      exact hsorted
    exact (List.pairwise_append.1 hsorted2).2.2 p hp q h

lemma most_common_sorted (m : List (String × Nat)) (n : Nat) :
    (most_common m n).Pairwise (fun p q => q.2 ≤ p.2) :=
  List.Pairwise.sublist (List.take_sublist n _) (List.sorted_insertionSort countGE m)

lemma most_common_length (m : List (String × Nat)) (n : Nat) :
    (most_common m n).length = min n m.length := by
  unfold most_common
  rw [List.length_take, List.length_insertionSort]

lemma mem_most_common {m : List (String × Nat)} {n : Nat} {p : String × Nat}
    (hp : p ∈ most_common m n) : p ∈ m :=
  (List.mem_insertionSort countGE).1 ((List.take_sublist n _).subset hp)

lemma segment_keys (cut : String → List String) (text : String) (sw : List String) :
    (segment_and_count cut text sw).map Prod.fst =
      firstSeens (filterTokens (cut text) sw) :=
  counter_keys _

lemma most_common_stable_ties (cut : String → List String) (text : String)
    (sw : List String) (n : Nat) :
    ∀ w1 w2 c, (w1, c) ∈ most_common (segment_and_count cut text sw) n →
      (w2, c) ∈ most_common (segment_and_count cut text sw) n →
      (cut text).indexOf w1 < (cut text).indexOf w2 →
      [(w1, c), (w2, c)].Sublist (most_common (segment_and_count cut text sw) n) := by
  intro w1 w2 c h1r h2r hidx
  have h1m : (w1, c) ∈ segment_and_count cut text sw := mem_most_common h1r
  have h2m : (w2, c) ∈ segment_and_count cut text sw := mem_most_common h2r
  have h1f : w1 ∈ filterTokens (cut text) sw :=
    @counterFromList_keys (filterTokens (cut text) sw) (w1, c) h1m
  have h2f : w2 ∈ filterTokens (cut text) sw :=
    @counterFromList_keys (filterTokens (cut text) sw) (w2, c) h2m
  have h1p := (List.mem_filter.1 h1f).2
  have h2p := (List.mem_filter.1 h2f).2
  have hidxf := indexOf_filter_lt (fun w => stripTruthy w && !(decide (w ∈ sw)))
    (cut text) w1 w2 h1p h2p hidx
  have hk1 : w1 ∈ firstSeens (filterTokens (cut text) sw) := by
    rw [← segment_keys cut text sw]
    exact List.mem_map_of_mem Prod.fst h1m
  have hk2 : w2 ∈ firstSeens (filterTokens (cut text) sw) := by
    rw [← segment_keys cut text sw]
    exact List.mem_map_of_mem Prod.fst h2m
  have hfs : [w1, w2].Sublist (firstSeens (filterTokens (cut text) sw)) :=
    firstSeens_order hk1 hk2 hidxf
  have hkeysnd : ((segment_and_count cut text sw).map Prod.fst).Nodup := by
    rw [segment_keys cut text sw]
    exact firstSeens_nodup _
  have hpairm : [(w1, c), (w2, c)].Sublist (segment_and_count cut text sw) := by
    apply keys_pair_lift _ w1 w2 c c hkeysnd _ h1m h2m
    rw [segment_keys cut text sw]
    exact hfs
  have hstv : [(w1, c), (w2, c)].Sublist
      ((segment_and_count cut text sw).insertionSort countGE) :=
    List.pair_sublist_insertionSort (Nat.le_refl c) hpairm
  have hndm : (segment_and_count cut text sw).Nodup :=
    List.Nodup.of_map Prod.fst hkeysnd
  have hnds : ((segment_and_count cut text sw).insertionSort countGE).Nodup :=
    (List.perm_insertionSort countGE _).symm.nodup hndm
  exact sublist_take_of_mem _ n _ _ hnds hstv h1r h2r

/-- C1: on every frequency map produced by `segment_and_count` and every N,
top-N retrieval returns N pairs whose counts dominate every pair left out, in
non-increasing count order, and pairs with equal counts appear in the order the
segmentation first yielded their tokens; in particular, on the map
(测试 ↦ 5, 分析 ↦ 3, 数据 ↦ 3) with N = 2, 测试 comes first and the second
element is 分析, the tied token seen first. -/
theorem most_common_top_n (cut : String → List String) (text : String)
    (sw : List String) (n : Nat) :
    (∀ p ∈ most_common (segment_and_count cut text sw) n,
      ∀ q ∈ segment_and_count cut text sw,
        q ∉ most_common (segment_and_count cut text sw) n → q.2 ≤ p.2) ∧
    (most_common (segment_and_count cut text sw) n).Pairwise (fun p q => q.2 ≤ p.2) ∧
    (most_common (segment_and_count cut text sw) n).length =
      min n (segment_and_count cut text sw).length ∧
    (∀ w1 w2 c, (w1, c) ∈ most_common (segment_and_count cut text sw) n →
      (w2, c) ∈ most_common (segment_and_count cut text sw) n →
      (cut text).indexOf w1 < (cut text).indexOf w2 →
      [(w1, c), (w2, c)].Sublist (most_common (segment_and_count cut text sw) n)) ∧
    most_common (segment_and_count
        (fun _ => ["测试", "测试", "测试", "测试", "测试", "分析", "分析", "分析",
          "数据", "数据", "数据"]) "x" []) 2 = [("测试", 5), ("分析", 3)] :=
  ⟨most_common_le _ n, most_common_sorted _ n, most_common_length _ n,
    most_common_stable_ties cut text sw n, by decide⟩

end App
